import Mathlib

/-!
Shallow embedding of `src/crawler.py` (a Codeforces API crawler) and
verification of the specification's claims about it.

The embedding covers:
* the request signer `api_signature` (backed by a complete SHA-512
  implementation, modelling Python's `hashlib.sha512(...).hexdigest()`);
* the URL construction and response handling of `get_user_status`;
* the aggregation pipeline `parse_data` (filter, first-wins dedup by
  problem name, stable sort by rating, rating and tag counts);
* the entry-point control flow (fetch, then aggregate and write files).

Randomness (`random.choice`), the clock (`time.time()`), and the
process-external secrets `KEY`/`SECRET` are modelled as explicit
parameters of the corresponding functions.
-/

set_option maxRecDepth 100000

namespace Crawler

/-! ### SHA-512 (FIPS 180-4)

Words are natural numbers reduced modulo `2 ^ 64`. -/

def M64 : Nat := 2 ^ 64

/-- Reduction of a natural number to a 64-bit word. -/
def w64 (x : Nat) : Nat := x % M64

/-- Right rotation of a 64-bit word by `n` places. -/
def rotr (n x : Nat) : Nat := w64 ((x >>> n) ||| (x <<< (64 - n)))

/-- Bitwise complement of a 64-bit word. -/
def lnot64 (x : Nat) : Nat := (M64 - 1) ^^^ x

def bigS0 (x : Nat) : Nat := rotr 28 x ^^^ rotr 34 x ^^^ rotr 39 x

def bigS1 (x : Nat) : Nat := rotr 14 x ^^^ rotr 18 x ^^^ rotr 41 x

def smallS0 (x : Nat) : Nat := rotr 1 x ^^^ rotr 8 x ^^^ (x >>> 7)

def smallS1 (x : Nat) : Nat := rotr 19 x ^^^ rotr 61 x ^^^ (x >>> 6)

def ch (x y z : Nat) : Nat := (x &&& y) ^^^ (lnot64 x &&& z)

def maj (x y z : Nat) : Nat := (x &&& y) ^^^ (x &&& z) ^^^ (y &&& z)

/-- UTF-8 encoding of a single character, as byte values.  Models the
byte sequence produced by Python's `str.encode()`. -/
def utf8CharBytes (c : Char) : List Nat :=
  let n := c.toNat
  if n < 0x80 then [n]
  else if n < 0x800 then [0xC0 ||| (n >>> 6), 0x80 ||| (n &&& 0x3F)]
  else if n < 0x10000 then
    [0xE0 ||| (n >>> 12), 0x80 ||| ((n >>> 6) &&& 0x3F), 0x80 ||| (n &&& 0x3F)]
  else
    [0xF0 ||| (n >>> 18), 0x80 ||| ((n >>> 12) &&& 0x3F),
      0x80 ||| ((n >>> 6) &&& 0x3F), 0x80 ||| (n &&& 0x3F)]

def utf8Bytes (s : String) : List Nat := s.data.flatMap utf8CharBytes

/-- Big-endian byte rendering of `x` on `n` bytes. -/
def beBytes : Nat → Nat → List Nat
  | 0, _ => []
  | n + 1, x => beBytes n (x / 256) ++ [x % 256]

/-- SHA-512 padding: append `0x80`, zero bytes up to 112 mod 128, and the
message length in bits as a 128-bit big-endian integer. -/
def padMsg (msg : List Nat) : List Nat :=
  msg ++ [0x80] ++ List.replicate ((128 - (msg.length + 17) % 128) % 128) 0 ++
    beBytes 16 (8 * msg.length)

/-- Big-endian interpretation of a byte list as a word. -/
def beWord (bs : List Nat) : Nat := bs.foldl (fun acc b => acc * 256 + b) 0

/-- Conversion of the first `k` groups of 8 bytes into 64-bit words. -/
def takeWords : Nat → List Nat → List Nat
  | 0, _ => []
  | k + 1, bs => beWord (bs.take 8) :: takeWords k (bs.drop 8)

def toBlocksAux : Nat → List Nat → List (List Nat)
  | 0, _ => []
  | k + 1, bs => takeWords 16 bs :: toBlocksAux k (bs.drop 128)

/-- Splitting of a padded byte string into 16-word blocks. -/
def toBlocks (bs : List Nat) : List (List Nat) := toBlocksAux (bs.length / 128) bs

def iterate (f : α → α) : Nat → α → α
  | 0, a => a
  | n + 1, a => iterate f n (f a)

/-- One step of the message-schedule extension.  The list holds the
schedule so far in reverse (most recent word first). -/
def scheduleStep (w : List Nat) : List Nat :=
  w64 (smallS1 (w.getD 1 0) + w.getD 6 0 + smallS0 (w.getD 14 0) + w.getD 15 0) :: w

/-- Extension of a 16-word block to the 80-word message schedule. -/
def schedule (block : List Nat) : List Nat :=
  (iterate scheduleStep 64 block.reverse).reverse

structure Sha2State where
  a : Nat
  b : Nat
  c : Nat
  d : Nat
  e : Nat
  f : Nat
  g : Nat
  h : Nat
deriving DecidableEq

/-- One SHA-512 round. -/
def shaRound (st : Sha2State) (k w : Nat) : Sha2State :=
  let t1 := w64 (st.h + bigS1 st.e + ch st.e st.f st.g + k + w)
  let t2 := w64 (bigS0 st.a + maj st.a st.b st.c)
  ⟨w64 (t1 + t2), st.a, st.b, st.c, w64 (st.d + t1), st.e, st.f, st.g⟩

/-- Round constants: the first 64 bits of the fractional parts of the cube
roots of the first 80 primes. -/
def K512 : List Nat := [
  4794697086780616226, 8158064640168781261, 13096744586834688815,
  16840607885511220156, 4131703408338449720, 6480981068601479193,
  10538285296894168987, 12329834152419229976, 15566598209576043074,
  1334009975649890238, 2608012711638119052, 6128411473006802146,
  8268148722764581231, 9286055187155687089, 11230858885718282805,
  13951009754708518548, 16472876342353939154, 17275323862435702243,
  1135362057144423861, 2597628984639134821, 3308224258029322869,
  5365058923640841347, 6679025012923562964, 8573033837759648693,
  10970295158949994411, 12119686244451234320, 12683024718118986047,
  13788192230050041572, 14330467153632333762, 15395433587784984357,
  489312712824947311, 1452737877330783856, 2861767655752347644,
  3322285676063803686, 5560940570517711597, 5996557281743188959,
  7280758554555802590, 8532644243296465576, 9350256976987008742,
  10552545826968843579, 11727347734174303076, 12113106623233404929,
  14000437183269869457, 14369950271660146224, 15101387698204529176,
  15463397548674623760, 17586052441742319658, 1182934255886127544,
  1847814050463011016, 2177327727835720531, 2830643537854262169,
  3796741975233480872, 4115178125766777443, 5681478168544905931,
  6601373596472566643, 7507060721942968483, 8399075790359081724,
  8693463985226723168, 9568029438360202098, 10144078919501101548,
  10430055236837252648, 11840083180663258601, 13761210420658862357,
  14299343276471374635, 14566680578165727644, 15097957966210449927,
  16922976911328602910, 17689382322260857208, 500013540394364858,
  748580250866718886, 1242879168328830382, 1977374033974150939,
  2944078676154940804, 3659926193048069267, 4368137639120453308,
  4836135668995329356, 5532061633213252278, 6448918945643986474,
  6902733635092675308, 7801388544844847127]

/-- Initial hash value: the first 64 bits of the fractional parts of the
square roots of the first 8 primes. -/
def initH : Sha2State :=
  ⟨7640891576956012808, 13503953896175478587, 4354685564936845355,
    11912009170470909681, 5840696475078001361, 11170449401992604703,
    2270897969802886507, 6620516959819538809⟩

/-- Compression of one 16-word block into the running state. -/
def compressBlock (st : Sha2State) (block : List Nat) : Sha2State :=
  let fin := (K512.zip (schedule block)).foldl (fun s kw => shaRound s kw.1 kw.2) st
  ⟨w64 (st.a + fin.a), w64 (st.b + fin.b), w64 (st.c + fin.c), w64 (st.d + fin.d),
    w64 (st.e + fin.e), w64 (st.f + fin.f), w64 (st.g + fin.g), w64 (st.h + fin.h)⟩

def sha512Bytes (msg : List Nat) : Sha2State :=
  (toBlocks (padMsg msg)).foldl compressBlock initH

/-- Lowercase hexadecimal digit for a value below 16. -/
def hexDigit (n : Nat) : Char :=
  if n < 10 then Char.ofNat (48 + n) else Char.ofNat (87 + n)

def hexChars : Nat → Nat → List Char
  | 0, _ => []
  | n + 1, x => hexChars n (x / 16) ++ [hexDigit (x % 16)]

/-- Lowercase 16-digit hexadecimal rendering of a 64-bit word. -/
def hexWord (x : Nat) : String := String.mk (hexChars 16 x)

/-- Model of `sha512hex` composed with `.hexdigest()` as used in
`api_signature`: the lowercase hexadecimal SHA-512 digest of the UTF-8
encoding of `s`. -/
def sha512hex (s : String) : String :=
  let st := sha512Bytes (utf8Bytes s)
  hexWord st.a ++ hexWord st.b ++ hexWord st.c ++ hexWord st.d ++
    hexWord st.e ++ hexWord st.f ++ hexWord st.g ++ hexWord st.h

/-! ### String utilities for the signer embedding -/

/-- Python string slicing `s[:-1]`: all characters but the last. -/
def strDropLast (s : String) : String := String.mk s.data.dropLast

/-- Python's `<=` comparison on character sequences: lexicographic by
code point. -/
def strLeChars : List Char → List Char → Bool
  | [], _ => true
  | _ :: _, [] => false
  | a :: as, b :: bs => if a = b then strLeChars as bs else decide (a.toNat < b.toNat)

/-- Python's `<=` on strings, the key order used by `SortedDict`. -/
def strLe (a b : String) : Bool := strLeChars a.data b.data

/-! ### The signer (`api_signature`)

The 6-character random draw `rand`, the shared `SECRET`, and the
parameter mapping (as an association list whose values carry their
f-string rendering) are explicit arguments. -/

/-- Key order on parameters used by `SortedDict`: ascending lexicographic
order of the parameter names. -/
def keyLe (p q : String × String) : Prop := strLe p.1 q.1 = true

instance : DecidableRel keyLe := fun p q =>
  inferInstanceAs (Decidable (strLe p.1 q.1 = true))

/-- Iteration order of `SortedDict(params)`: the parameter list sorted by
key.  Dict keys are distinct, so any sort by key yields this sequence. -/
def sortParams (params : List (String × String)) : List (String × String) :=
  params.insertionSort keyLe

/-- Canonical string hashed by `api_signature`, transcribed from the
source: `rand + "/" + method + "?"`, then `f"{key}={value}&"` appended
for each parameter in `SortedDict` order, then the last character
removed (`hash_string[:-1]`), then `"#" + SECRET` appended. -/
def hashStringOf (rand method : String) (params : List (String × String))
    (secret : String) : String :=
  strDropLast ((sortParams params).foldl
      (fun acc p => acc ++ (p.1 ++ "=" ++ p.2 ++ "&"))
      (rand ++ "/" ++ method ++ "?")) ++ "#" ++ secret

/-- Model of `api_signature`: the random prefix concatenated with the
hexadecimal SHA-512 digest of the canonical string. -/
def api_signature (rand method : String) (params : List (String × String))
    (secret : String) : String :=
  rand ++ sha512hex (hashStringOf rand method params secret)

/-- Rendered parameters joined by `&` separators; equal to rendering each
as `key=value&` and stripping the trailing `&`. -/
def ampJoin : List String → String
  | [] => ""
  | [p] => p
  | p :: q :: ps => p ++ "&" ++ ampJoin (q :: ps)

/-- Canonical string as the specification words it (the refinement side
of claim C1): `<rand>/<method>?` followed by each parameter rendered as
`key=value&` with parameters sorted by key ascending and the trailing
`&` stripped, then `#<shared-secret>` appended. -/
def specCanonicalString (rand method : String) (params : List (String × String))
    (secret : String) : String :=
  rand ++ "/" ++ method ++ "?" ++
    ampJoin ((sortParams params).map (fun p => p.1 ++ "=" ++ p.2)) ++ "#" ++ secret

/-- Concatenation of each parameter rendered as `key=value&`. -/
def joinAmp : List (String × String) → String
  | [] => ""
  | p :: ps => (p.1 ++ "=" ++ p.2 ++ "&") ++ joinAmp ps

/-- A 112-byte message, the padding boundary case: its padded form
occupies two blocks. -/
def msg112 : String := String.mk (List.replicate 112 'a')

/-- A 200-byte message spanning two blocks before padding. -/
def msg200 : String := String.mk (List.replicate 200 'a')

/-! ### Data model and the aggregator (`parse_data`) -/

structure Problem where
  name : String
  rating : Option Int
  tags : List String
deriving DecidableEq

structure Submission where
  verdict : String
  problem : Problem
deriving DecidableEq

/-- First filter pass of `parse_data`:
`x["verdict"] == "OK" and "rating" in x["problem"]`. -/
def okRated (s : Submission) : Bool := s.verdict == "OK" && s.problem.rating.isSome

def filterOK (data : List Submission) : List Submission := data.filter okRated

/-- Second filter pass of `parse_data`, with the mutating `exist_name`
list: records are scanned left to right, a record is kept when its
problem name is not yet in `exist_name`, and the name is then appended
as a side effect of the predicate. -/
def dedupGo : List Submission → List String → List Submission
  | [], _ => []
  | x :: xs, seen =>
    if x.problem.name ∈ seen then dedupGo xs seen
    else x :: dedupGo xs (seen ++ [x.problem.name])

def dedupByName (data : List Submission) : List Submission := dedupGo data []

/-- Sort key `x["problem"]["rating"]`.  Every record reaching the sort in
`parse_data` has a rating (the first filter guarantees it), so the
default is never consulted there. -/
def ratingOf (s : Submission) : Int := s.problem.rating.getD 0

def leRating (a b : Submission) : Prop := ratingOf a ≤ ratingOf b

instance : DecidableRel leRating := fun a b =>
  inferInstanceAs (Decidable (ratingOf a ≤ ratingOf b))

/-- Python's `sorted(data, key=lambda x: x["problem"]["rating"])`, a
stable sort by rating: modelled by insertion sort, which is stable (any
two stable sorts by the same key agree pointwise). -/
def sortByRating (data : List Submission) : List Submission :=
  data.insertionSort leRating

/-- Counting-dict update `d[k] += 1` / `d[k] = 1`: an existing key keeps
its position, a new key is appended at the end. -/
def bump {κ : Type} [DecidableEq κ] (k : κ) : List (κ × Nat) → List (κ × Nat)
  | [] => [(k, 1)]
  | (j, c) :: rest => if j = k then (j, c + 1) :: rest else (j, c) :: bump k rest

/-- The `rating` counting loop of `parse_data`. -/
def ratingCounts (data : List Submission) : List (Int × Nat) :=
  data.foldl (fun acc s => bump (ratingOf s) acc) []

/-- The `tags` counting loop of `parse_data`: one increment per tag
occurrence in each record's tag list. -/
def tagCounts (data : List Submission) : List (String × Nat) :=
  data.foldl (fun acc s => s.problem.tags.foldl (fun a t => bump t a) acc) []

/-- The aggregation pipeline of `parse_data`: the three values written to
`data.json`, `rating.json` and `tags.json` (both counting loops run over
the sorted list). -/
def parse_data (data : List Submission) :
    List Submission × List (Int × Nat) × List (String × Nat) :=
  let d := sortByRating (dedupByName (filterOK data))
  (d, ratingCounts d, tagCounts d)

/-! ### The status fetcher and the entry point -/

def BASE_URL : String := "https://codeforces.com/api/"

/-- URL built by `get_user_status`, transcribed from the f-string
literal including its line continuation: the space before the
backslash and the twelve spaces of indentation of the continued line
are part of the string, so thirteen spaces separate the timestamp from
`&apiSig=`. -/
def buildUrl (method key : String) (timestamp : Int) (apiSig handle : String)
    (fromIdx count : Int) : String :=
  BASE_URL ++ method ++ "?apiKey=" ++ key ++ "&time=" ++ toString timestamp ++
    "             &apiSig=" ++ apiSig ++ "&handle=" ++ handle ++ "&from=" ++
    toString fromIdx ++ "&count=" ++ toString count

/-- Parsed JSON response of the `user.status` endpoint. -/
structure ApiResponse where
  status : String
  comment : String
  result : List Submission
deriving DecidableEq

/-- Observable effects of one `get_user_status` call: the URL requested,
the value returned (`none` models Python's `None` on a FAILED status)
and the lines printed. -/
structure FetchEffects where
  url : String
  returned : Option (List Submission)
  printed : List String
deriving DecidableEq

/-- Model of `get_user_status`.  The clock value, the 6-character random
draw, the secrets `KEY`/`SECRET` and the parsed JSON response delivered
by the single GET are explicit parameters. -/
def get_user_status (key secret rand : String) (timestamp : Int)
    (handle : String) (fromIdx count : Int) (resp : ApiResponse) : FetchEffects :=
  let apiSig := api_signature rand "user.status"
    [("apiKey", key), ("handle", handle), ("from", toString fromIdx),
      ("count", toString count), ("time", toString timestamp)] secret
  ⟨buildUrl "user.status" key timestamp apiSig handle fromIdx count,
    if resp.status = "FAILED" then none else some resp.result,
    if resp.status = "FAILED" then [resp.comment] else []⟩

/-- Content of one output file. -/
inductive Artifact where
  | subs : List Submission → Artifact
  | ratings : List (Int × Nat) → Artifact
  | tagMap : List (String × Nat) → Artifact
deriving DecidableEq

/-- File writes performed by a completed `parse_data` call. -/
def parse_data_writes (data : List Submission) : List (String × Artifact) :=
  [("data.json", Artifact.subs (parse_data data).1),
    ("rating.json", Artifact.ratings (parse_data data).2.1),
    ("tags.json", Artifact.tagMap (parse_data data).2.2)]

/-- File writes of the entry point after the fetch: when the fetch
returned `None`, `parse_data(None)` raises a `TypeError` at its first
`filter` call, before any `open`, so nothing is written. -/
def mainWrites (fetched : Option (List Submission)) : List (String × Artifact) :=
  match fetched with
  | none => []
  | some l => parse_data_writes l

/-- Example record from the specification's aggregation test: an
accepted, rating-bearing `dp` problem named `A`. -/
def exOkA : Submission := ⟨"OK", ⟨"A", some 1200, ["dp"]⟩⟩

/-- Example record from the specification's aggregation test: a rejected
`greedy` problem named `B`. -/
def exWrongB : Submission := ⟨"WRONG_ANSWER", ⟨"B", some 800, ["greedy"]⟩⟩

/-- Example record from the specification's stability test. -/
def exP1 : Submission := ⟨"OK", ⟨"P1", some 1500, ["dp"]⟩⟩

/-- Example record from the specification's stability test. -/
def exP2 : Submission := ⟨"OK", ⟨"P2", some 1500, ["greedy"]⟩⟩

/-- Example accepted record without a rating field. -/
def exNoRating : Submission := ⟨"OK", ⟨"C", none, ["math"]⟩⟩

/-- Example accepted record whose tag list repeats a tag. -/
def exDupTags : Submission := ⟨"OK", ⟨"A", some 1200, ["dp", "dp"]⟩⟩

/-- Number of records of the deduplicated, filtered set having rating
`r` (the claimed reading of `ratingCounts` in C6). -/
def ratingTally (l : List Submission) (r : Int) : Nat :=
  ((dedupByName (filterOK l)).filter (fun s => s.problem.rating == some r)).length

/-- Total number of occurrences of tag `t` across the tag lists of the
deduplicated, filtered set (the amended reading of `tagCounts` in C6). -/
def tagTally (l : List Submission) (t : String) : Nat :=
  ((dedupByName (filterOK l)).flatMap (fun s => s.problem.tags)).count t

/-- Deduplication as the specification words it (the refinement side of
claim C4): keep the first occurrence of each distinct problem name,
dropping every later record whose name was already seen. -/
def dedupSpec : List Submission → List Submission
  | [] => []
  | x :: xs =>
    x :: (dedupSpec xs).filter (fun y => decide (y.problem.name ≠ x.problem.name))


/-- Sum of the counter values of a counting dict. -/
def valSum {κ : Type} (al : List (κ × Nat)) : Nat := (al.map Prod.snd).sum

/-- Folding a counting-dict update over a list of keys. -/
def foldBump {κ : Type} [DecidableEq κ] (ks : List κ) (acc : List (κ × Nat)) :
    List (κ × Nat) :=
  ks.foldl (fun a k => bump k a) acc

/-! ### String lemmas -/

theorem strExt {a b : String} (h : a.data = b.data) : a = b := by
  cases a
  cases b
  exact congrArg String.mk h

theorem strLeChars_total (x y : List Char) :
    strLeChars x y = true ∨ strLeChars y x = true := by
  induction x generalizing y with
  | nil => exact Or.inl rfl
  | cons a as ih =>
    cases y with
    | nil => exact Or.inr rfl
    | cons b bs =>
      by_cases hab : a = b
      · subst hab
        simpa [strLeChars] using ih bs
      · have hne : a.toNat ≠ b.toNat := fun h => hab (Char.eq_of_val_eq (UInt32.ext h))
        have hba : ¬b = a := fun h => hab h.symm
        rcases Nat.lt_or_ge a.toNat b.toNat with hlt | hge
        · exact Or.inl (by simp [strLeChars, hab, hlt])
        · have hgt : b.toNat < a.toNat := Nat.lt_of_le_of_ne hge (Ne.symm hne)
          exact Or.inr (by simp [strLeChars, hba, hgt])

theorem strLeChars_trans {x y z : List Char} (hxy : strLeChars x y = true)
    (hyz : strLeChars y z = true) : strLeChars x z = true := by
  induction x generalizing y z with
  | nil => rfl
  | cons a as ih =>
    cases y with
    | nil => simp [strLeChars] at hxy
    | cons b bs =>
      cases z with
      | nil => simp [strLeChars] at hyz
      | cons c cs =>
        by_cases hab : a = b
        · subst hab
          by_cases hac : a = c
          · subst hac
            simp only [strLeChars, if_pos rfl] at hxy hyz ⊢
            exact ih hxy hyz
          · simp only [strLeChars, if_pos rfl] at hxy
            simpa [strLeChars, hac] using (by simpa [strLeChars, hac] using hyz)
        · by_cases hbc : b = c
          · subst hbc
            simpa [strLeChars, hab] using (by simpa [strLeChars, hab] using hxy)
          · have h1 : a.toNat < b.toNat := by simpa [strLeChars, hab] using hxy
            have h2 : b.toNat < c.toNat := by simpa [strLeChars, hbc] using hyz
            have hac : a ≠ c := by
              intro h
              subst h
              exact Nat.lt_irrefl _ (Nat.lt_trans h1 h2)
            simp [strLeChars, hac, Nat.lt_trans h1 h2]

theorem strLeChars_antisymm {x y : List Char} (hxy : strLeChars x y = true)
    (hyx : strLeChars y x = true) : x = y := by
  induction x generalizing y with
  | nil =>
    cases y with
    | nil => rfl
    | cons b bs => simp [strLeChars] at hyx
  | cons a as ih =>
    cases y with
    | nil => simp [strLeChars] at hxy
    | cons b bs =>
      by_cases hab : a = b
      · subst hab
        simp only [strLeChars, if_pos rfl] at hxy hyx
        rw [ih hxy hyx]
      · have hba : ¬b = a := fun h => hab h.symm
        have h1 : a.toNat < b.toNat := by simpa [strLeChars, hab] using hxy
        have h2 : b.toNat < a.toNat := by simpa [strLeChars, hba] using hyx
        exact absurd h2 (Nat.not_lt_of_lt h1)

theorem strLe_antisymm {a b : String} (hab : strLe a b = true)
    (hba : strLe b a = true) : a = b :=
  strExt (strLeChars_antisymm hab hba)

theorem foldl_render_eq (ps : List (String × String)) (acc : String) :
    ps.foldl (fun a p => a ++ (p.1 ++ "=" ++ p.2 ++ "&")) acc = acc ++ joinAmp ps := by
  induction ps generalizing acc with
  | nil => simp [joinAmp]
  | cons q qs ih =>
    rw [List.foldl_cons, ih]
    simp [joinAmp, String.append_assoc]

theorem strDropLast_append (a b : String) (hb : b.data ≠ []) :
    strDropLast (a ++ b) = a ++ strDropLast b :=
  strExt (by
    simp only [strDropLast, String.data_append]
    exact List.dropLast_append_of_ne_nil a.data hb)

theorem data_append_amp (x : String) : (x ++ "&").data = x.data ++ ['&'] := by
  simp [String.data_append]

theorem strDropLast_amp (x : String) : strDropLast (x ++ "&") = x :=
  strExt (by
    simp only [strDropLast, data_append_amp]
    rw [List.dropLast_append_of_ne_nil x.data (by simp)]
    simp)

theorem joinAmp_data_ne_nil (p : String × String) (ps : List (String × String)) :
    (joinAmp (p :: ps)).data ≠ [] := by
  simp only [joinAmp, String.data_append]
  intro h
  have := congrArg List.length h
  simp [String.data_append] at this

theorem strDropLast_joinAmp (p : String × String) (ps : List (String × String)) :
    strDropLast (joinAmp (p :: ps)) =
      ampJoin ((p :: ps).map (fun q => q.1 ++ "=" ++ q.2)) := by
  induction ps generalizing p with
  | nil =>
    show strDropLast ((p.1 ++ "=" ++ p.2 ++ "&") ++ "") = _
    rw [String.append_empty]
    exact strDropLast_amp _
  | cons q qs ih =>
    show strDropLast ((p.1 ++ "=" ++ p.2 ++ "&") ++ joinAmp (q :: qs)) = _
    rw [strDropLast_append _ _ (joinAmp_data_ne_nil q qs), ih q]
    simp [ampJoin, String.append_assoc]

theorem sortParams_ne_nil {params : List (String × String)} (hne : params ≠ []) :
    sortParams params ≠ [] := by
  intro h
  apply hne
  have hlen := congrArg List.length h
  rw [sortParams, List.length_insertionSort] at hlen
  exact List.eq_nil_of_length_eq_zero hlen

/-- C1: for every method, nonempty parameter mapping, random prefix and
secret, the string hashed by the signer is exactly `<rand>/<method>?`
followed by the parameters rendered as `key=value&` in ascending key
order with the trailing `&` stripped and `#<secret>` appended, and the
returned signature is the random prefix concatenated with the lowercase
hexadecimal SHA-512 digest of that string.  (For the empty parameter
mapping the code instead strips the `?`; see the counterexample.) -/
theorem api_signature_canonical (rand method secret : String)
    (params : List (String × String)) (hne : params ≠ []) :
    hashStringOf rand method params secret =
      specCanonicalString rand method params secret ∧
    api_signature rand method params secret =
      rand ++ sha512hex (specCanonicalString rand method params secret) := by
  obtain ⟨p, ps, hpps⟩ := List.exists_cons_of_ne_nil (sortParams_ne_nil hne)
  have h1 : hashStringOf rand method params secret =
      specCanonicalString rand method params secret := by
    unfold hashStringOf specCanonicalString
    rw [foldl_render_eq, hpps, strDropLast_append _ _ (joinAmp_data_ne_nil p ps),
      strDropLast_joinAmp]
  exact ⟨h1, by rw [api_signature, h1]⟩

/-- Witness for C1 at the specification's own example mapping
`{handle: x, from: 1, count: 2}`: the keys serialize in ascending order
`count, from, handle`. -/
theorem api_signature_canonical_witness :
    (([("handle", "x"), ("from", "1"), ("count", "2")] : List (String × String)) ≠ []) ∧
    hashStringOf "AAAAAA" "user.status"
        [("handle", "x"), ("from", "1"), ("count", "2")] "SECRET" =
      specCanonicalString "AAAAAA" "user.status"
        [("handle", "x"), ("from", "1"), ("count", "2")] "SECRET" ∧
    specCanonicalString "AAAAAA" "user.status"
        [("handle", "x"), ("from", "1"), ("count", "2")] "SECRET" =
      "AAAAAA/user.status?count=2&from=1&handle=x#SECRET" :=
  ⟨by decide,
    (api_signature_canonical "AAAAAA" "user.status" "SECRET" _ (by decide)).1,
    by decide⟩

/-- Counterexample to C1 as stated: on the empty parameter mapping the
code's `hash_string[:-1]` strips the `?` rather than a trailing `&`, so
the hashed string is not the canonical string of the claim. -/
theorem api_signature_canonical_cex :
    hashStringOf "AAAAAA" "user.status" [] "SECRET" ≠
      specCanonicalString "AAAAAA" "user.status" [] "SECRET" := by
  decide

/-- C9: the signature is a deterministic function of the random prefix,
the method, the parameter mapping and the secret: two computations with
the same prefix, the same parameters (the same key-value mapping, in any
association-list order) and the same secret produce the same digest
string. -/
theorem api_signature_deterministic (rand method secret : String)
    (p1 p2 : List (String × String)) (hperm : List.Perm p1 p2)
    (hkeys : (p1.map Prod.fst).Nodup) :
    api_signature rand method p1 secret = api_signature rand method p2 secret := by
  haveI : IsTotal (String × String) keyLe :=
    ⟨fun p q => strLeChars_total p.1.data q.1.data⟩
  haveI : IsTrans (String × String) keyLe :=
    ⟨fun _ _ _ h1 h2 => strLeChars_trans h1 h2⟩
  have hperm2 : List.Perm (sortParams p1) (sortParams p2) :=
    ((List.perm_insertionSort keyLe p1).trans hperm).trans
      (List.perm_insertionSort keyLe p2).symm
  have hkeys2 : (p2.map Prod.fst).Nodup := ((hperm.map Prod.fst)).nodup hkeys
  have hk1 : ((sortParams p1).map Prod.fst).Nodup :=
    (((List.perm_insertionSort keyLe p1).map Prod.fst).symm).nodup hkeys
  have hk2 : ((sortParams p2).map Prod.fst).Nodup :=
    (((List.perm_insertionSort keyLe p2).map Prod.fst).symm).nodup hkeys2
  have hs1 : List.Pairwise (fun p q : String × String => keyLe p q ∧ p.1 ≠ q.1)
      (sortParams p1) :=
    (List.sorted_insertionSort keyLe p1).and (List.pairwise_map.mp hk1)
  have hs2 : List.Pairwise (fun p q : String × String => keyLe p q ∧ p.1 ≠ q.1)
      (sortParams p2) :=
    (List.sorted_insertionSort keyLe p2).and (List.pairwise_map.mp hk2)
  haveI : IsAntisymm (String × String) (fun p q => keyLe p q ∧ p.1 ≠ q.1) :=
    ⟨fun _ _ hab hba => absurd (strLe_antisymm hab.1 hba.1) hab.2⟩
  have hsort : sortParams p1 = sortParams p2 :=
    List.eq_of_perm_of_sorted hperm2 hs1 hs2
  unfold api_signature hashStringOf
  rw [hsort]

/-- Witness for C9: the example mapping given in two different
association-list orders yields the same signature. -/
theorem api_signature_deterministic_witness :
    List.Perm ([("handle", "x"), ("from", "1"), ("count", "2")] : List (String × String))
      [("count", "2"), ("from", "1"), ("handle", "x")] ∧
    (([("handle", "x"), ("from", "1"), ("count", "2")] : List (String × String)).map
      Prod.fst).Nodup ∧
    api_signature "AAAAAA" "user.status"
        [("handle", "x"), ("from", "1"), ("count", "2")] "SECRET" =
      api_signature "AAAAAA" "user.status"
        [("count", "2"), ("from", "1"), ("handle", "x")] "SECRET" :=
  ⟨by decide, by decide,
    api_signature_deterministic "AAAAAA" "user.status" "SECRET" _ _
      (by decide) (by decide)⟩

/-- Validation of the SHA-512 implementation on the empty message
(FIPS 180-4 / NIST test vector). -/
theorem sha512hex_vector_empty :
    sha512hex "" =
      "cf83e1357eefb8bdf1542850d66d8007d620e4050b5715dc83f4a921d36ce9ce47d0d13c5d85f2b0ff8318d2877eec2f63b931bd47417a81a538327af927da3e" := by
  decide

/-- Validation of the SHA-512 implementation on `"abc"`
(FIPS 180-4 / NIST test vector). -/
theorem sha512hex_vector_abc :
    sha512hex "abc" =
      "ddaf35a193617abacc417349ae20413112e6fa4e89a97ea20a9eeee64b55d39a2192992a274fc1a836ba3c23a3feebbd454d4423643ce80e2a9ac94fa54ca49f" := by
  decide

/-- Validation of the SHA-512 implementation at the two-block padding
boundary (112 bytes of `a`). -/
theorem sha512hex_vector_boundary :
    sha512hex msg112 =
      "c01d080efd492776a1c43bd23dd99d0a2e626d481e16782e75d54c2503b5dc32bd05f0f1ba33e568b88fd2d970929b719ecbb152f58f130a407c8830604b70ca" := by
  decide

/-- Validation of the SHA-512 implementation on a two-block message
(200 bytes of `a`). -/
theorem sha512hex_vector_two_blocks :
    sha512hex msg200 =
      "4b11459c33f52a22ee8236782714c150a3b2c60994e9acee17fe68947a3e6789f31e7668394592da7bef827cddca88c4e6f86e4df7ed1ae6cba71f3e98faee9f" := by
  decide

/-! ### Deduplication lemmas -/

theorem dedupGo_eq (l : List Submission) :
    ∀ seen, dedupGo l seen =
      (dedupSpec l).filter (fun y => decide (y.problem.name ∉ seen)) := by
  induction l with
  | nil => intro seen; rfl
  | cons x xs ih =>
    intro seen
    by_cases hx : x.problem.name ∈ seen
    · rw [show dedupGo (x :: xs) seen = dedupGo xs seen by simp [dedupGo, hx]]
      rw [show dedupSpec (x :: xs) =
        x :: (dedupSpec xs).filter (fun y => decide (y.problem.name ≠ x.problem.name))
        from rfl]
      rw [List.filter_cons_of_neg (by simp [hx]), List.filter_filter, ih seen]
      apply List.filter_congr
      intro a _
      by_cases ha : a.problem.name ∈ seen
      · simp [ha]
      · have hne : a.problem.name ≠ x.problem.name := fun h => ha (h ▸ hx)
        simp [ha, hne]
    · rw [show dedupGo (x :: xs) seen =
        x :: dedupGo xs (seen ++ [x.problem.name]) by simp [dedupGo, hx]]
      rw [show dedupSpec (x :: xs) =
        x :: (dedupSpec xs).filter (fun y => decide (y.problem.name ≠ x.problem.name))
        from rfl]
      rw [List.filter_cons_of_pos (by simp [hx]), List.filter_filter,
        ih (seen ++ [x.problem.name])]
      congr 1
      apply List.filter_congr
      intro a _
      by_cases ha : a.problem.name ∈ seen
      · simp [List.mem_append, ha]
      · by_cases hax : a.problem.name = x.problem.name <;>
          simp [List.mem_append, ha, hax]

theorem dedupByName_eq_spec (l : List Submission) : dedupByName l = dedupSpec l := by
  rw [dedupByName, dedupGo_eq]
  apply List.filter_eq_self.mpr
  intro a _
  simp

theorem dedupSpec_sublist (l : List Submission) : List.Sublist (dedupSpec l) l := by
  induction l with
  | nil => exact List.Sublist.refl []
  | cons x xs ih =>
    exact List.Sublist.cons₂ x ((List.filter_sublist (dedupSpec xs)).trans ih)

theorem dedupSpec_names_nodup (l : List Submission) :
    ((dedupSpec l).map (fun s => s.problem.name)).Nodup := by
  induction l with
  | nil => exact List.nodup_nil
  | cons x xs ih =>
    rw [show dedupSpec (x :: xs) =
      x :: (dedupSpec xs).filter (fun y => decide (y.problem.name ≠ x.problem.name))
      from rfl, List.map_cons]
    refine List.nodup_cons.mpr ⟨?_, ?_⟩
    · intro hmem
      obtain ⟨y, hy, hyn⟩ := List.mem_map.mp hmem
      have : y.problem.name ≠ x.problem.name := by
        have := List.of_mem_filter hy
        simpa using this
      exact this hyn
    · exact (((List.filter_sublist (dedupSpec xs)).map _).nodup) ih

theorem dedupSpec_mem_iff (l : List Submission) (x : Submission) :
    x ∈ dedupSpec l ↔
      ∃ l1 l2, l = l1 ++ x :: l2 ∧
        ∀ y ∈ l1, y.problem.name ≠ x.problem.name := by
  induction l with
  | nil =>
    simp only [dedupSpec, List.not_mem_nil, false_iff, not_exists]
    intro l1 l2 h
    exact absurd h.1 (by simp)
  | cons a xs ih =>
    constructor
    · intro hmem
      rcases List.mem_cons.mp hmem with heq | hmem2
      · exact ⟨[], xs, by simp [heq], by simp⟩
      · have hxmem : x ∈ dedupSpec xs := List.mem_of_mem_filter hmem2
        have hne : x.problem.name ≠ a.problem.name := by
          have := List.of_mem_filter hmem2
          simpa using this
        obtain ⟨l1, l2, heq, hpre⟩ := ih.mp hxmem
        refine ⟨a :: l1, l2, by rw [List.cons_append, heq], ?_⟩
        intro y hy
        rcases List.mem_cons.mp hy with rfl | hy2
        · exact hne.symm
        · exact hpre y hy2
    · rintro ⟨l1, l2, heq, hpre⟩
      cases l1 with
      | nil =>
        rw [List.nil_append] at heq
        injection heq with h1 h2
        rw [show dedupSpec (a :: xs) =
          a :: (dedupSpec xs).filter (fun y => decide (y.problem.name ≠ a.problem.name))
          from rfl, h1]
        exact List.mem_cons_self x _
      | cons b l1x =>
        rw [List.cons_append] at heq
        injection heq with hab hxs
        have hxmem : x ∈ dedupSpec xs :=
          ih.mpr ⟨l1x, l2, hxs, fun y hy => hpre y (List.mem_cons_of_mem b hy)⟩
        have hbx : x.problem.name ≠ a.problem.name := by
          have := hpre b (List.mem_cons_self b l1x)
          rw [hab]
          exact fun h => this h.symm
        exact List.mem_cons_of_mem a
          (List.mem_filter.mpr ⟨hxmem, by simpa using hbx⟩)

theorem dedupSpec_eq_self {l : List Submission}
    (h : (l.map (fun s => s.problem.name)).Nodup) : dedupSpec l = l := by
  induction l with
  | nil => rfl
  | cons x xs ih =>
    rw [List.map_cons, List.nodup_cons] at h
    rw [show dedupSpec (x :: xs) =
      x :: (dedupSpec xs).filter (fun y => decide (y.problem.name ≠ x.problem.name))
      from rfl, ih h.2]
    congr 1
    apply List.filter_eq_self.mpr
    intro y hy
    have : y.problem.name ≠ x.problem.name := by
      intro hyx
      exact h.1 (List.mem_map.mpr ⟨y, hy, hyx⟩)
    simpa using this

/-! ### Stability of the rating sort -/

theorem filter_rating_orderedInsert (r : Int) (x : Submission) (l : List Submission) :
    (l.orderedInsert leRating x).filter (fun s => ratingOf s == r) =
      if ratingOf x == r then x :: l.filter (fun s => ratingOf s == r)
      else l.filter (fun s => ratingOf s == r) := by
  induction l with
  | nil =>
    by_cases hxr : ratingOf x = r <;> simp [List.orderedInsert, List.filter_cons, hxr]
  | cons y ys ih =>
    rw [List.orderedInsert]
    by_cases hle : leRating x y
    · rw [if_pos hle]
      by_cases hxr : ratingOf x = r <;> simp [List.filter_cons, hxr]
    · rw [if_neg hle]
      have hlt : ratingOf y < ratingOf x := not_le.mp hle
      by_cases hxr : ratingOf x = r
      · have hyr : ratingOf y ≠ r := by
          intro h
          rw [h, hxr] at hlt
          exact lt_irrefl r hlt
        simp [List.filter_cons, hxr, hyr, ih]
      · by_cases hyr : ratingOf y = r <;> simp [List.filter_cons, hxr, hyr, ih]

theorem filter_rating_sortByRating (r : Int) (l : List Submission) :
    (sortByRating l).filter (fun s => ratingOf s == r) =
      l.filter (fun s => ratingOf s == r) := by
  induction l with
  | nil => rfl
  | cons x xs ih =>
    rw [sortByRating, List.insertionSort, filter_rating_orderedInsert]
    rw [sortByRating] at ih
    by_cases hxr : ratingOf x = r <;> simp [List.filter_cons, hxr, ih]

/-! ### Counting lemmas -/

theorem lookup_cons {κ : Type} [BEq κ] (a j : κ) (c : Nat) (rest : List (κ × Nat)) :
    List.lookup a ((j, c) :: rest) = if a == j then some c else List.lookup a rest := by
  cases h : a == j <;> simp [List.lookup, h]

theorem lookup_bump_self {κ : Type} [DecidableEq κ] [BEq κ] [LawfulBEq κ]
    (k : κ) (al : List (κ × Nat)) :
    (bump k al).lookup k = some ((al.lookup k).getD 0 + 1) := by
  induction al with
  | nil => simp [bump, lookup_cons, List.lookup]
  | cons p rest ih =>
    obtain ⟨j, c⟩ := p
    by_cases hj : j = k
    · subst hj
      simp [bump, lookup_cons]
    · have hbeq : (k == j) = false := beq_eq_false_iff_ne.mpr (fun hh => hj hh.symm)
      simp [bump, hj, lookup_cons, hbeq, ih]

theorem lookup_bump_ne {κ : Type} [DecidableEq κ] [BEq κ] [LawfulBEq κ]
    {k q : κ} (h : ¬q = k) (al : List (κ × Nat)) :
    (bump k al).lookup q = al.lookup q := by
  have hkq : (q == k) = false := beq_eq_false_iff_ne.mpr h
  induction al with
  | nil => simp [bump, lookup_cons, List.lookup, hkq]
  | cons p rest ih =>
    obtain ⟨j, c⟩ := p
    by_cases hj : j = k
    · subst hj
      simp [bump, lookup_cons, hkq]
    · cases hqj : q == j <;> simp [bump, hj, lookup_cons, hqj, ih]

theorem foldBump_lookup_getD {κ : Type} [DecidableEq κ] [BEq κ] [LawfulBEq κ]
    (ks : List κ) (acc : List (κ × Nat)) (k : κ) :
    ((foldBump ks acc).lookup k).getD 0 = (acc.lookup k).getD 0 + ks.count k := by
  induction ks generalizing acc with
  | nil => simp [foldBump]
  | cons j js ih =>
    rw [foldBump, List.foldl_cons]
    change ((foldBump js (bump j acc)).lookup k).getD 0 = _
    rw [ih]
    by_cases hj : j = k
    · subst hj
      rw [lookup_bump_self]
      simp [List.count_cons]
      omega
    · rw [lookup_bump_ne (fun hh => hj hh.symm)]
      have : (j == k) = false := beq_eq_false_iff_ne.mpr hj
      simp [List.count_cons, this]

theorem foldBump_lookup_none {κ : Type} [DecidableEq κ] [BEq κ] [LawfulBEq κ]
    (ks : List κ) (acc : List (κ × Nat)) (k : κ) :
    (foldBump ks acc).lookup k = none ↔ acc.lookup k = none ∧ ks.count k = 0 := by
  induction ks generalizing acc with
  | nil => simp [foldBump]
  | cons j js ih =>
    rw [foldBump, List.foldl_cons]
    change (foldBump js (bump j acc)).lookup k = none ↔ _
    rw [ih]
    by_cases hj : j = k
    · subst hj
      constructor
      · rintro ⟨h1, _⟩
        rw [lookup_bump_self] at h1
        exact absurd h1 (by simp)
      · rintro ⟨_, h2⟩
        rw [List.count_cons] at h2
        simp at h2
    · rw [lookup_bump_ne (fun hh => hj hh.symm)]
      have hbeq : (j == k) = false := beq_eq_false_iff_ne.mpr hj
      simp [List.count_cons, hbeq]

theorem foldBump_lookup {κ : Type} [DecidableEq κ] [BEq κ] [LawfulBEq κ]
    (ks : List κ) (k : κ) :
    (foldBump ks []).lookup k =
      if ks.count k = 0 then none else some (ks.count k) := by
  by_cases h : ks.count k = 0
  · rw [if_pos h]
    exact (foldBump_lookup_none ks [] k).mpr ⟨by simp [List.lookup], h⟩
  · rw [if_neg h]
    have hg := foldBump_lookup_getD ks [] k
    have hne : (foldBump ks []).lookup k ≠ none := by
      intro hnone
      exact h ((foldBump_lookup_none ks [] k).mp hnone).2
    obtain ⟨v, hv⟩ := Option.ne_none_iff_exists.mp hne
    rw [← hv] at hg ⊢
    simp [List.lookup] at hg
    rw [hg]

theorem valSum_bump {κ : Type} [DecidableEq κ] (k : κ) (al : List (κ × Nat)) :
    valSum (bump k al) = valSum al + 1 := by
  induction al with
  | nil => simp [bump, valSum]
  | cons p rest ih =>
    obtain ⟨j, c⟩ := p
    by_cases hj : j = k
    · subst hj
      simp [bump, valSum]
      omega
    · simp [bump, hj, valSum] at ih ⊢
      omega

theorem valSum_foldBump {κ : Type} [DecidableEq κ] (ks : List κ)
    (acc : List (κ × Nat)) :
    valSum (foldBump ks acc) = valSum acc + ks.length := by
  induction ks generalizing acc with
  | nil => simp [foldBump]
  | cons j js ih =>
    rw [foldBump, List.foldl_cons]
    change valSum (foldBump js (bump j acc)) = _
    rw [ih, valSum_bump]
    simp
    omega

theorem ratingCounts_eq_foldBump (d : List Submission) :
    ratingCounts d = foldBump (d.map ratingOf) [] := by
  rw [ratingCounts, foldBump, List.foldl_map]

theorem tagCounts_eq_foldBump (d : List Submission) :
    tagCounts d = foldBump (d.flatMap (fun s => s.problem.tags)) [] := by
  suffices h : ∀ acc,
      d.foldl (fun acc s => s.problem.tags.foldl (fun a t => bump t a) acc) acc =
        foldBump (d.flatMap (fun s => s.problem.tags)) acc from h []
  intro acc
  induction d generalizing acc with
  | nil => simp [foldBump]
  | cons s ds ih =>
    rw [List.foldl_cons, ih, List.flatMap_cons]
    simp only [foldBump]
    rw [List.foldl_append]

/-! ### Helper lemmas about `parse_data` -/

theorem parse_data_fst (l : List Submission) :
    (parse_data l).1 = sortByRating (dedupByName (filterOK l)) := rfl

theorem parse_data_snd1 (l : List Submission) :
    (parse_data l).2.1 = ratingCounts (sortByRating (dedupByName (filterOK l))) := rfl

theorem parse_data_snd2 (l : List Submission) :
    (parse_data l).2.2 = tagCounts (sortByRating (dedupByName (filterOK l))) := rfl

theorem okRated_iff (s : Submission) :
    okRated s = true ↔ (s.verdict = "OK" ∧ s.problem.rating.isSome = true) := by
  simp [okRated]

theorem mem_dedup_filterOK {l : List Submission} {s : Submission}
    (h : s ∈ dedupByName (filterOK l)) : s ∈ filterOK l := by
  rw [dedupByName_eq_spec] at h
  exact (dedupSpec_sublist _).subset h

theorem mem_dedup_okRated {l : List Submission} {s : Submission}
    (h : s ∈ dedupByName (filterOK l)) : okRated s = true :=
  (List.mem_filter.mp (mem_dedup_filterOK h)).2

theorem mem_parse_data_okRated {l : List Submission} {s : Submission}
    (h : s ∈ (parse_data l).1) : okRated s = true := by
  rw [parse_data_fst, sortByRating] at h
  exact mem_dedup_okRated ((List.mem_insertionSort leRating).mp h)

theorem parse_data_names_nodup (l : List Submission) :
    ((parse_data l).1.map (fun s => s.problem.name)).Nodup := by
  rw [parse_data_fst, sortByRating]
  exact ((List.perm_insertionSort leRating _).map _).symm.nodup
    (by rw [dedupByName_eq_spec]; exact dedupSpec_names_nodup _)

theorem ratingOf_beq_of_isSome {s : Submission} (h : s.problem.rating.isSome = true)
    (r : Int) : (ratingOf s == r) = (s.problem.rating == some r) := by
  cases hs : s.problem.rating with
  | none => rw [hs] at h; simp at h
  | some v => simp [ratingOf, hs]

theorem count_map_ratingOf (d : List Submission) (r : Int) :
    (d.map ratingOf).count r = (d.filter (fun s => ratingOf s == r)).length := by
  induction d with
  | nil => rfl
  | cons s ds ih =>
    by_cases h : ratingOf s = r <;>
      simp [List.map_cons, List.count_cons, List.filter_cons, h, ih]

theorem ratingTally_eq (l : List Submission) (r : Int) :
    ((sortByRating (dedupByName (filterOK l))).map ratingOf).count r =
      ratingTally l r := by
  have hperm : List.Perm ((sortByRating (dedupByName (filterOK l))).map ratingOf)
      ((dedupByName (filterOK l)).map ratingOf) :=
    (List.perm_insertionSort leRating _).map _
  rw [hperm.count_eq, count_map_ratingOf, ratingTally]
  exact congrArg List.length
    (List.filter_congr (fun s hs =>
      ratingOf_beq_of_isSome ((okRated_iff s).mp (mem_dedup_okRated hs)).2 r))

theorem tagTally_eq (l : List Submission) (t : String) :
    ((sortByRating (dedupByName (filterOK l))).flatMap (fun s => s.problem.tags)).count t =
      tagTally l t := by
  rw [sortByRating, tagTally]
  exact ((List.perm_insertionSort leRating
    (dedupByName (filterOK l))).flatMap_right (fun s => s.problem.tags)).count_eq t

/-! ### The claims -/

/-- C2: a fetch whose JSON response has status FAILED yields a failure
(the Python `None` return) carrying the response's comment as the
surfaced message, and none of `data.json`, `rating.json` and
`tags.json` is written. -/
theorem failed_fetch_no_writes (key secret rand : String) (timestamp : Int)
    (handle : String) (fromIdx count : Int) (resp : ApiResponse)
    (hf : resp.status = "FAILED") :
    (get_user_status key secret rand timestamp handle fromIdx count resp).returned = none ∧
    (get_user_status key secret rand timestamp handle fromIdx count resp).printed =
      [resp.comment] ∧
    mainWrites
      (get_user_status key secret rand timestamp handle fromIdx count resp).returned = [] := by
  refine ⟨?_, ?_, ?_⟩ <;> simp [get_user_status, hf, mainWrites]

/-- Witness for C2 at the specification's example response
`{status: FAILED, comment: wrong apiSig}`. -/
theorem failed_fetch_no_writes_witness :
    (ApiResponse.mk "FAILED" "wrong apiSig" []).status = "FAILED" ∧
    ((get_user_status "KEY" "SECRET" "AAAAAA" 1700000000 "LKV0429" 1 1000
        (ApiResponse.mk "FAILED" "wrong apiSig" [])).returned = none ∧
      (get_user_status "KEY" "SECRET" "AAAAAA" 1700000000 "LKV0429" 1 1000
        (ApiResponse.mk "FAILED" "wrong apiSig" [])).printed = ["wrong apiSig"] ∧
      mainWrites (get_user_status "KEY" "SECRET" "AAAAAA" 1700000000 "LKV0429" 1 1000
        (ApiResponse.mk "FAILED" "wrong apiSig" [])).returned = []) :=
  ⟨rfl, failed_fetch_no_writes "KEY" "SECRET" "AAAAAA" 1700000000 "LKV0429" 1 1000
    (ApiResponse.mk "FAILED" "wrong apiSig" []) rfl⟩

/-- C3: every record of the filtered/sorted output has verdict OK and a
rating field, and a record without a rating contributes to none of the
three outputs even when its verdict is OK (removing it changes
nothing). -/
theorem parse_data_only_ok_rated (l l1 l2 : List Submission) (x : Submission)
    (hx : x.problem.rating = none) :
    (∀ s ∈ (parse_data l).1, s.verdict = "OK" ∧ s.problem.rating.isSome = true) ∧
    parse_data (l1 ++ x :: l2) = parse_data (l1 ++ l2) := by
  constructor
  · intro s hs
    exact (okRated_iff s).mp (mem_parse_data_okRated hs)
  · have hfil : filterOK (l1 ++ x :: l2) = filterOK (l1 ++ l2) := by
      rw [filterOK, filterOK, List.filter_append, List.filter_append,
        List.filter_cons_of_neg (by simp [okRated, hx])]
    simp [parse_data, hfil]

/-- Witness for C3: dropping an OK record without a rating from the
middle of the input leaves all three outputs unchanged. -/
theorem parse_data_only_ok_rated_witness :
    exNoRating.problem.rating = none ∧
    ((∀ s ∈ (parse_data [exOkA]).1, s.verdict = "OK" ∧ s.problem.rating.isSome = true) ∧
      parse_data ([exOkA] ++ exNoRating :: [exWrongB]) =
        parse_data ([exOkA] ++ [exWrongB])) :=
  ⟨rfl, parse_data_only_ok_rated [exOkA] [exOkA] [exWrongB] exNoRating rfl⟩

/-- C4: after the filter, deduplication keeps exactly the first
occurrence of each distinct problem name in input order: it agrees with
the specification's first-wins dedup, is a subsequence of the filtered
list with pairwise-distinct names, and contains precisely the filtered
records whose problem name did not occur in any earlier filtered
record. -/
theorem dedup_first_wins (l : List Submission) :
    dedupByName (filterOK l) = dedupSpec (filterOK l) ∧
    List.Sublist (dedupByName (filterOK l)) (filterOK l) ∧
    ((dedupByName (filterOK l)).map (fun s => s.problem.name)).Nodup ∧
    ∀ x : Submission, x ∈ dedupByName (filterOK l) ↔
      ∃ m1 m2, filterOK l = m1 ++ x :: m2 ∧
        ∀ y ∈ m1, y.problem.name ≠ x.problem.name := by
  refine ⟨dedupByName_eq_spec _, ?_, ?_, ?_⟩
  · rw [dedupByName_eq_spec]
    exact dedupSpec_sublist _
  · rw [dedupByName_eq_spec]
    exact dedupSpec_names_nodup _
  · intro x
    rw [dedupByName_eq_spec]
    exact dedupSpec_mem_iff _ x

/-- C5: the filtered/sorted output is the deduplicated sequence stably
sorted ascending by rating: a permutation of the deduplicated sequence,
pairwise ordered by rating, with equal-rating records keeping their
deduplication order; on the spec's example, P1 stays before P2. -/
theorem sort_stable (l : List Submission) :
    List.Perm (parse_data l).1 (dedupByName (filterOK l)) ∧
    List.Pairwise leRating (parse_data l).1 ∧
    (∀ r : Int, (parse_data l).1.filter (fun s => ratingOf s == r) =
      (dedupByName (filterOK l)).filter (fun s => ratingOf s == r)) ∧
    (parse_data [exP1, exP2]).1 = [exP1, exP2] := by
  haveI : IsTotal Submission leRating := ⟨fun a b => le_total (ratingOf a) (ratingOf b)⟩
  haveI : IsTrans Submission leRating := ⟨fun _ _ _ h1 h2 => le_trans h1 h2⟩
  refine ⟨?_, ?_, ?_, by decide⟩
  · rw [parse_data_fst, sortByRating]
    exact List.perm_insertionSort leRating _
  · rw [parse_data_fst, sortByRating]
    exact List.sorted_insertionSort leRating _
  · intro r
    rw [parse_data_fst]
    exact filter_rating_sortByRating r _

/-- C6 (amended): `ratingCounts` maps each rating to the number of
deduplicated, filtered records with that rating, and `tagCounts` maps
each tag to the total number of its occurrences across those records'
tag lists (one increment per occurrence); on the specification's
three-record example the outputs are exactly `[A]`, `{1200: 1}` and
`{dp: 1}`. -/
theorem counts_spec (l : List Submission) (r : Int) (t : String) :
    ((parse_data l).2.1.lookup r =
      if ratingTally l r = 0 then none else some (ratingTally l r)) ∧
    ((parse_data l).2.2.lookup t =
      if tagTally l t = 0 then none else some (tagTally l t)) ∧
    parse_data [exOkA, exWrongB, exOkA] = ([exOkA], [(1200, 1)], [("dp", 1)]) := by
  refine ⟨?_, ?_, by decide⟩
  · rw [parse_data_snd1, ratingCounts_eq_foldBump, foldBump_lookup, ratingTally_eq]
  · rw [parse_data_snd2, tagCounts_eq_foldBump, foldBump_lookup, tagTally_eq]

/-- Counterexample to C6 as stated: for a record whose tag list repeats
a tag, the code counts once per occurrence, not once per containing
record. -/
theorem counts_spec_cex :
    (parse_data [exDupTags]).2.2.lookup "dp" ≠
      some (((dedupByName (filterOK [exDupTags])).filter
        (fun s => decide ("dp" ∈ s.problem.tags))).length) := by
  decide

/-- C7: the aggregation pipeline is idempotent on its own output:
re-running `parse_data` on the filtered/sorted list it produced yields
the same list and the same two count mappings. -/
theorem parse_data_idempotent (l : List Submission) :
    parse_data ((parse_data l).1) = parse_data l := by
  have hfil : filterOK ((parse_data l).1) = (parse_data l).1 :=
    List.filter_eq_self.mpr (fun s hs => mem_parse_data_okRated hs)
  have hded : dedupByName ((parse_data l).1) = (parse_data l).1 := by
    rw [dedupByName_eq_spec]
    exact dedupSpec_eq_self (parse_data_names_nodup l)
  haveI : IsTotal Submission leRating := ⟨fun a b => le_total (ratingOf a) (ratingOf b)⟩
  haveI : IsTrans Submission leRating := ⟨fun _ _ _ h1 h2 => le_trans h1 h2⟩
  have hsort : List.Sorted leRating ((parse_data l).1) := by
    rw [parse_data_fst, sortByRating]
    exact List.sorted_insertionSort leRating _
  have hsorted : sortByRating ((parse_data l).1) = (parse_data l).1 := by
    rw [sortByRating]
    exact hsort.insertionSort_eq
  have hcore : sortByRating (dedupByName (filterOK ((parse_data l).1))) =
      (parse_data l).1 := by
    rw [hfil, hded, hsorted]
  show (sortByRating (dedupByName (filterOK ((parse_data l).1))),
      ratingCounts (sortByRating (dedupByName (filterOK ((parse_data l).1)))),
      tagCounts (sortByRating (dedupByName (filterOK ((parse_data l).1))))) =
    parse_data l
  rw [hcore]
  rfl

/-- C8: the URL built by `get_user_status` always contains whitespace —
the line-continuation literal leaks thirteen space characters into the
URL between the timestamp and `&apiSig=`, refuting the claim that the
final URL is whitespace-free. -/
theorem buildUrl_contains_space (method key : String) (timestamp : Int)
    (apiSig handle : String) (fromIdx count : Int) :
    ' ' ∈ (buildUrl method key timestamp apiSig handle fromIdx count).data := by
  simp only [buildUrl, String.data_append]
  refine List.mem_append_left _ (List.mem_append_left _ (List.mem_append_left _
    (List.mem_append_left _ (List.mem_append_left _ (List.mem_append_left _
      (List.mem_append_left _ (List.mem_append_right _ ?_)))))))
  decide

/-- Evaluation of C8 at the program's own call
`get_user_status("LKV0429", 1, 1000)`: the requested URL contains a
space character. -/
theorem url_contains_whitespace :
    ' ' ∈ (get_user_status "KEY" "SECRET" "AAAAAA" 1700000000 "LKV0429" 1 1000
      (ApiResponse.mk "OK" "" [])).url.data := by
  decide

/-- C10: the three outputs are mutually consistent: every record of the
filtered/sorted list is an accepted, rating-bearing record with a
problem name distinct from every other record in the list, and the
values of `ratingCounts` sum to the length of the filtered/sorted
list. -/
theorem outputs_consistent (l : List Submission) :
    (∀ s ∈ (parse_data l).1, s.verdict = "OK" ∧ s.problem.rating.isSome = true) ∧
    ((parse_data l).1.map (fun s => s.problem.name)).Nodup ∧
    valSum (parse_data l).2.1 = (parse_data l).1.length := by
  refine ⟨fun s hs => (okRated_iff s).mp (mem_parse_data_okRated hs),
    parse_data_names_nodup l, ?_⟩
  rw [parse_data_snd1, ratingCounts_eq_foldBump, valSum_foldBump, parse_data_fst]
  simp [valSum]

end Crawler
